import Mathlib

/-!
Shallow embedding of the Wave Function Collapse library
(`src/WFC/Topology.h`, `src/WFC/CartesianTopology.h`).

Raw node pointers into the `nodes` vector are modelled as indices into the
`nodes` list (`nullptr` becomes `none`).  C++ exceptions are modelled by
threading the topology state explicitly and returning `Except Err`: a thrown
exception carries away the topology in whatever (possibly mutated) state it
was in, exactly as the in-place C++ mutation leaves it.  The two unbounded
loops (`collapse` and the BFS of `propagate`) are written with explicit fuel;
`none` models a run that exhausts the fuel bound (or hits C++ undefined
behaviour such as `% 0`), and theorems below show the chosen bounds always
suffice.
-/

namespace WFC

/-- Error kinds raised by the engine: `std::logic_error("Invalid state to
collapse")` and `std::runtime_error("No valid states")` in the C++ source. -/
inductive Err where
  | invalidForcedState
  | noValidStates
deriving DecidableEq

/-- Deterministic random-number generator abstracting `std::mt19937`: an
infinite stream of draws together with the position of the next draw. -/
structure Rng where
  stream : Nat → Nat
  pos : Nat

/-- One draw from the generator (a call `randGen()` in the source): returns
the drawn value and the advanced generator. -/
def Rng.next (r : Rng) : Nat × Rng :=
  (r.stream r.pos, ⟨r.stream, r.pos + 1⟩)

/-- `Node` from `Topology.h`: the live candidate set `states` and the
adjacency list `adjacent` (pointers modelled as indices, `nullptr` as
`none`). -/
structure Node (S : Type) where
  states : List S
  adjacent : List (Option Nat)

/-- `Topology` from `Topology.h`: the node arena, the weight map
(`std::map<State, float>`, modelled as a partial function into `ℚ`), and the
user compatibility predicate, taking node identities as indices. -/
structure Topology (S : Type) where
  nodes : List (Node S)
  weights : S → Option ℚ
  compatible : Nat → S → Nat → S → Bool

variable {S : Type}

/-- Dereference a node index.  Out-of-range access (undefined behaviour in
C++) yields the empty node. -/
def getNodeD (t : Topology S) (i : Nat) : Node S :=
  t.nodes.getD i ⟨[], []⟩

/-- Overwrite the candidate set of node `i` (the assignment
`node.states = ...` in the source); adjacency is untouched. -/
def setStates (t : Topology S) (i : Nat) (ss : List S) : Topology S :=
  { t with nodes := t.nodes.set i ⟨ss, (getNodeD t i).adjacent⟩ }

/-- Weight lookup `this->weights.find(s) != end() ? weights.at(s) : 1`. -/
def weightOf (t : Topology S) (s : S) : ℚ :=
  match t.weights s with
  | some w => w
  | none => 1

/-- `Topology::isPlaceable`: every present neighbour has some candidate
compatible with `s` at node `i`. -/
def isPlaceable (t : Topology S) (i : Nat) (s : S) : Bool :=
  (getNodeD t i).adjacent.all fun slot =>
    match slot with
    | none => true
    | some j => (getNodeD t j).states.any fun sj => t.compatible i s j sj

/-- `Topology::isCollapsed`: every node has exactly one candidate. -/
def isCollapsed (t : Topology S) : Bool :=
  t.nodes.all fun nd => nd.states.length == 1

/-- `Topology::isCorrect`: every node is a singleton and every present
neighbour is a singleton compatible with it. -/
def isCorrect (t : Topology S) : Bool :=
  (List.range t.nodes.length).all fun i =>
    match (getNodeD t i).states with
    | [sa] =>
      (getNodeD t i).adjacent.all fun slot =>
        match slot with
        | none => true
        | some j =>
          match (getNodeD t j).states with
          | [sb] => t.compatible i sa j sb
          | _ => false
    | _ => false

/-- `Topology::reduceStates`: stable filter of node `i` by placeability.  The
node is overwritten first; if the filtered set is empty the error is raised
afterwards, so the mutation survives on the error path. -/
def reduceStates (t : Topology S) (i : Nat) : Topology S × Except Err Bool :=
  let newStates := (getNodeD t i).states.filter fun s => isPlaceable t i s
  let changed := newStates.length != (getNodeD t i).states.length
  let t' := setStates t i newStates
  if newStates.isEmpty then (t', .error .noValidStates) else (t', .ok changed)

/-- `Topology::getState`: keep the candidates of node `i` with positive
weight that are placeable; raise `noValidStates` when none remain, otherwise
sample one.  `std::discrete_distribution` (whose algorithm and generator
consumption are implementation-defined) is abstracted as one generator draw
selecting an index bounded by the filtered length; the claims below depend
only on which list is sampled from. -/
def getState (t : Topology S) (i : Nat) (rng : Rng) : Except Err (S × Rng) :=
  match (getNodeD t i).states.filter fun s =>
      decide (0 < weightOf t s) && isPlaceable t i s with
  | [] => .error .noValidStates
  | a0 :: rest =>
    .ok ((a0 :: rest).getD (rng.next.1 % (a0 :: rest).length) a0, rng.next.2)

/-- Accumulator step of the first loop of `Topology::getMinEntropy`:
`entropy < minEntropy && entropy != 1`, with the `SIZE_MAX` sentinel
modelled as `none`. -/
def minEntropyStep (acc : Option Nat) (e : Nat) : Option Nat :=
  if (match acc with | none => true | some m => decide (e < m)) && (e != 1) then
    some e
  else acc

/-- `Topology::getMinEntropy`: the minimal candidate-set size over nodes of
size `≠ 1`, then one draw modulo the number of nodes attaining it.  `none`
models the undefined `% 0` when no node attains the minimum. -/
def getMinEntropy (t : Topology S) (rng : Rng) : Option (Nat × Rng) :=
  match (List.range t.nodes.length).filter fun i =>
      some (getNodeD t i).states.length ==
        t.nodes.foldl (fun acc nd => minEntropyStep acc nd.states.length) none with
  | [] => none
  | m0 :: rest =>
    some ((m0 :: rest).getD (rng.next.1 % (m0 :: rest).length) m0, rng.next.2)

/-- Inner loop of `Topology::propagate` over `current->adjacent`: each
present, unvisited neighbour is reduced; if reduction shrank it, it is
enqueued and marked visited; a reduction error aborts the sweep. -/
def stepNeighbours (t : Topology S) :
    List (Option Nat) → List Nat → List Nat →
      Topology S × List Nat × List Nat × Option Err
  | [], q, v => (t, q, v, none)
  | none :: rest, q, v => stepNeighbours t rest q v
  | some j :: rest, q, v =>
    if j ∈ v then stepNeighbours t rest q v
    else
      match reduceStates t j with
      | (t', .error e) => (t', q, v, some e)
      | (t', .ok changed) =>
        if changed then stepNeighbours t' rest (q ++ [j]) (v ++ [j])
        else stepNeighbours t' rest q v

/-- BFS loop of `Topology::propagate`, with fuel.  Besides the final topology
and outcome it returns the trace of processed (dequeued) nodes. -/
def propagateLoop (t : Topology S) :
    Nat → List Nat → List Nat → List Nat →
      Option (Topology S × List Nat × Except Err Unit)
  | 0, _, _, _ => none
  | _ + 1, [], _, tr => some (t, tr, .ok ())
  | fuel + 1, current :: qrest, v, tr =>
    match stepNeighbours t (getNodeD t current).adjacent qrest v with
    | (t', _, _, some e) => some (t', tr ++ [current], .error e)
    | (t', q', v', none) => propagateLoop t' fuel q' v' (tr ++ [current])

/-- `Topology::propagate`: BFS from `start` with queue and visited set both
initialised to the start node. -/
def propagate (t : Topology S) (start : Nat) :
    Option (Topology S × List Nat × Except Err Unit) :=
  propagateLoop t (2 * t.nodes.length + 2) [start] [start] []

/-- `Topology::collapseNode`: look the forced state up in the candidate set
(raising `invalidForcedState` when absent and leaving the topology
untouched), overwrite the node with the found element, and propagate. -/
def collapseNode [DecidableEq S] (t : Topology S) (i : Nat) (s : S) :
    Option (Topology S × Except Err Unit) :=
  match (getNodeD t i).states.find? fun x => x == s with
  | none => some (t, .error .invalidForcedState)
  | some s' =>
    match propagate (setStates t i [s']) i with
    | none => none
    | some (t', _, r) => some (t', r)

/-- Total number of candidates over all nodes, the termination measure of
`collapse`. -/
def totalCount (t : Topology S) : Nat :=
  (t.nodes.map fun nd => nd.states.length).sum

/-- Main loop of `Topology::collapse`, with fuel:
pick the minimum-entropy node, sample a state, force it, repeat. -/
def collapseLoop [DecidableEq S] :
    Nat → Topology S → Rng → Option (Topology S × Except Err Unit)
  | 0, _, _ => none
  | fuel + 1, t, rng =>
    if isCollapsed t then some (t, .ok ()) else
      match getMinEntropy t rng with
      | none => none
      | some (i, rng') =>
        match getState t i rng' with
        | .error e => some (t, .error e)
        | .ok (s, rng'') =>
          match collapseNode t i s with
          | none => none
          | some (t', .error e) => some (t', .error e)
          | some (t', .ok ()) => collapseLoop fuel t' rng''

/-- `Topology::collapse`: run the loop from a seeded generator.  The fuel
`totalCount t + 1` is shown below to be always sufficient. -/
def collapse [DecidableEq S] (t : Topology S) (stream : Nat → Nat) :
    Option (Topology S × Except Err Unit) :=
  collapseLoop (totalCount t + 1) t ⟨stream, 0⟩

/-! Cartesian topology (`src/WFC/CartesianTopology.h`).  The fixed-length
`Vec<Dim>` of sizes and coordinates is modelled as a `List Nat` of length
`Dim` (and the periodicity array as a `List Bool`); out-of-range component
access uses the component defaults `0` / `false`, matching the
default-initialised `periods` argument of the constructors. -/

/-- `CartesianTopology::getIndex`: column-major ravel of a coordinate,
`Σ c[a] · Π_{b<a} sz[b]`, written as the running-accumulator inner product
of the source. -/
def cartIndex : List Nat → List Nat → Nat
  | c :: cs, s :: ss => c + s * cartIndex cs ss
  | _, _ => 0

/-- `CartesianTopology::getCoord`: successive `mod`/`div` by the sizes. -/
def cartCoord : List Nat → Nat → List Nat
  | [], _ => []
  | s :: ss, i => (i % s) :: cartCoord ss (i / s)

/-- Coordinate `coordsNegative` of the constructor: component `a`
decremented, wrapping to `size[a] - 1` at `0`. -/
def negCoord (size coords : List Nat) (a : Nat) : List Nat :=
  coords.set a (if coords.getD a 0 ≠ 0 then coords.getD a 0 - 1 else size.getD a 0 - 1)

/-- Coordinate `coordsPositive` of the constructor: component `a`
incremented, wrapping to `0` at `size[a] - 1`. -/
def posCoord (size coords : List Nat) (a : Nat) : List Nat :=
  coords.set a (if coords.getD a 0 ≠ size.getD a 0 - 1 then coords.getD a 0 + 1 else 0)

/-- Adjacency list built for node `i` by the states constructor of
`CartesianTopology`: for each axis `a`, slot `2a` (negative direction, absent
at a non-periodic lower boundary) then slot `2a + 1` (positive direction,
absent at a non-periodic upper boundary). -/
def cartAdjacent (size : List Nat) (per : List Bool) (i : Nat) : List (Option Nat) :=
  let coords := cartCoord size i
  (List.range size.length).flatMap fun a =>
    [ if coords.getD a 0 ≠ 0 ∨ per.getD a false then
        some (cartIndex (negCoord size coords a) size)
      else none,
      if coords.getD a 0 ≠ size.getD a 0 - 1 ∨ per.getD a false then
        some (cartIndex (posCoord size coords a) size)
      else none ]

/-- The states constructor of `CartesianTopology`: `Π sz[a]` nodes in
column-major order, each carrying the full state list and the grid adjacency,
with the unconstrained (`always true`) compatibility predicate. -/
def cartesianTopology (size : List Nat) (per : List Bool) (states : List S)
    (weights : S → Option ℚ) : Topology S :=
  { nodes := (List.range size.prod).map fun i => ⟨states, cartAdjacent size per i⟩
    weights := weights
    compatible := fun _ _ _ _ => true }

/-- Compatibility predicate installed by the per-axis-rules constructor: scan
directions `i = 0, …, 2·Dim − 1` for the first with `a.adjacent[i] = &b` and
`b.adjacent[i XOR 1] = &a`; on the positive side (`i & 1`) evaluate
`rules[i/2](sa, sb)`, on the negative side `rules[i/2](sb, sa)`; `false` when
no direction matches. -/
def compatRules (rules : List (S → S → Bool)) (adjOf : Nat → List (Option Nat)) :
    Nat → S → Nat → S → Bool :=
  fun ia sa ib sb =>
    match (List.range (2 * rules.length)).find? fun i =>
        ((adjOf ia).getD i none == some ib) && ((adjOf ib).getD (i ^^^ 1) none == some ia) with
    | none => false
    | some i =>
      if i % 2 = 1 then (rules.getD (i / 2) fun _ _ => false) sa sb
      else (rules.getD (i / 2) fun _ _ => false) sb sa

/-- The per-axis-rules constructor of `CartesianTopology`: delegate to the
states constructor, then replace `compatible` by the rules predicate closing
over the construction-time adjacency. -/
def cartesianRules (size : List Nat) (states : List S)
    (rules : List (S → S → Bool)) (per : List Bool)
    (weights : S → Option ℚ) : Topology S :=
  { cartesianTopology size per states weights with
    compatible := compatRules rules (cartAdjacent size per) }

/-! Concrete topologies used to instantiate the theorems below. -/

/-- All-zero random stream. -/
def streamZero : Nat → Nat := fun _ => 0

/-- Generator seeded on the all-zero stream. -/
def rngZero : Rng := ⟨streamZero, 0⟩

/-- One isolated node holding the single candidate `false`. -/
def exSingle : Topology Bool :=
  { nodes := [⟨[false], []⟩]
    weights := fun _ => none
    compatible := fun _ _ _ _ => true }

/-- Two mutually adjacent nodes, both with candidates `{false, true}`,
compatible exactly when the states differ. -/
def exPair : Topology Bool :=
  { nodes := [⟨[false, true], [some 1]⟩, ⟨[false, true], [some 0]⟩]
    weights := fun _ => none
    compatible := fun _ a _ b => a != b }

/-- Two mutually adjacent nodes already collapsed to `false` and `true`,
compatible exactly when the states agree: already collapsed but not
correct. -/
def exPre : Topology Bool :=
  { nodes := [⟨[false], [some 1]⟩, ⟨[true], [some 0]⟩]
    weights := fun _ => none
    compatible := fun _ a _ b => a == b }

/-- A node with an empty candidate set next to a node with two candidates. -/
def exEmptyPair : Topology Nat :=
  { nodes := [⟨[], []⟩, ⟨[5, 6], []⟩]
    weights := fun _ => none
    compatible := fun _ _ _ _ => true }

/-- One isolated node with candidates `{true, false}` where `true` has
weight `0` and `false` keeps the default weight `1`. -/
def exZeroWeight : Topology Bool :=
  { nodes := [⟨[true, false], []⟩]
    weights := fun s => if s then some 0 else none
    compatible := fun _ _ _ _ => true }

/-- One isolated node whose candidates all have weight `0`. -/
def exAllZero : Topology Bool :=
  { nodes := [⟨[true, false], []⟩]
    weights := fun _ => some 0
    compatible := fun _ _ _ _ => true }

/-- Node `0` (candidate `false`) adjacent to node `1` (candidate `true`)
under equality compatibility: reducing node `0` empties it. -/
def exRed : Topology Bool :=
  { nodes := [⟨[false], [some 1]⟩, ⟨[true], []⟩]
    weights := fun _ => none
    compatible := fun _ a _ b => a == b }

/-- A three-node chain under equality compatibility with node `0` forced to
`false`: propagation from node `0` visits all three nodes. -/
def exChain : Topology Bool :=
  { nodes := [⟨[false], [some 1]⟩,
              ⟨[false, true], [some 0, some 2]⟩,
              ⟨[false, true], [some 1]⟩]
    weights := fun _ => none
    compatible := fun _ a _ b => a == b }

/-! Structural side conditions on a topology, used to state when the engine
guarantees a correct result.  The executable `...B` forms are decidable on
concrete topologies; the `Prop` forms are used inside proofs. -/

/-- Every present neighbour reference lies inside the node arena
(invariant I1 of the data model). -/
def wfAdjB (t : Topology S) : Bool :=
  (List.range t.nodes.length).all fun i =>
    (getNodeD t i).adjacent.all fun slot =>
      match slot with
      | none => true
      | some j => decide (j < t.nodes.length)

/-- Adjacency is symmetric: when node `j` occupies a slot of node `i`, node
`i` occupies some slot of node `j`. -/
def adjSymmB (t : Topology S) : Bool :=
  (List.range t.nodes.length).all fun i =>
    (getNodeD t i).adjacent.all fun slot =>
      match slot with
      | none => true
      | some j => (getNodeD t j).adjacent.contains (some i)

/-- No node is adjacent to itself. -/
def noSelfB (t : Topology S) : Bool :=
  (List.range t.nodes.length).all fun i =>
    !((getNodeD t i).adjacent.contains (some i))

/-- Every adjacent pair of nodes that are both already collapsed to a single
candidate is compatible. -/
def singletonOkB (t : Topology S) : Bool :=
  (List.range t.nodes.length).all fun i =>
    match (getNodeD t i).states with
    | [sa] =>
      (getNodeD t i).adjacent.all fun slot =>
        match slot with
        | none => true
        | some j =>
          match (getNodeD t j).states with
          | [sb] => t.compatible i sa j sb
          | _ => true
    | _ => true

/-- Neighbour references stay inside the arena, as a proposition. -/
def WfAdj (t : Topology S) : Prop :=
  ∀ i j, some j ∈ (getNodeD t i).adjacent → j < t.nodes.length

/-- Symmetric adjacency, as a proposition. -/
def AdjSymm (t : Topology S) : Prop :=
  ∀ i j, some j ∈ (getNodeD t i).adjacent → some i ∈ (getNodeD t j).adjacent

/-- Absence of self loops, as a proposition. -/
def NoSelf (t : Topology S) : Prop :=
  ∀ i, some i ∉ (getNodeD t i).adjacent

/-- The user contract that `compatible` is symmetric in the swap of its two
(node, state) arguments. -/
def SymmCompat (t : Topology S) : Prop :=
  ∀ i sa j sb, t.compatible i sa j sb = t.compatible j sb i sa

/-- The engine invariant: every adjacent pair of singleton nodes is
compatible. -/
def Inv (t : Topology S) : Prop :=
  ∀ i j sa sb, some j ∈ (getNodeD t i).adjacent →
    (getNodeD t i).states = [sa] → (getNodeD t j).states = [sb] →
    t.compatible i sa j sb = true

/-- All structural side conditions together with the engine invariant. -/
def Good (t : Topology S) : Prop :=
  WfAdj t ∧ AdjSymm t ∧ NoSelf t ∧ SymmCompat t ∧ Inv t

/-! Basic lemmas about node access and state updates. -/

theorem getNodeD_of_le (t : Topology S) (i : Nat) (h : t.nodes.length ≤ i) :
    getNodeD t i = ⟨[], []⟩ := by
  simp [getNodeD, List.getD_eq_getElem?_getD, List.getElem?_eq_none h]

theorem getNodeD_eq_getElem (t : Topology S) (i : Nat) (h : i < t.nodes.length) :
    getNodeD t i = t.nodes[i] := by
  simp [getNodeD, List.getD_eq_getElem?_getD, List.getElem?_eq_getElem h]

theorem setStates_nodes_length (t : Topology S) (i : Nat) (ss : List S) :
    (setStates t i ss).nodes.length = t.nodes.length := by
  simp [setStates]

theorem setStates_compatible (t : Topology S) (i : Nat) (ss : List S) :
    (setStates t i ss).compatible = t.compatible := rfl

theorem getNodeD_setStates_self (t : Topology S) (i : Nat) (ss : List S)
    (h : i < t.nodes.length) :
    getNodeD (setStates t i ss) i = ⟨ss, (getNodeD t i).adjacent⟩ := by
  simp [setStates, getNodeD, List.getD_eq_getElem?_getD, List.getElem?_set, h]

theorem getNodeD_setStates_ne (t : Topology S) (i k : Nat) (ss : List S)
    (h : k ≠ i) : getNodeD (setStates t i ss) k = getNodeD t k := by
  have hik : ¬ i = k := fun hik => h hik.symm
  simp [setStates, getNodeD, List.getD_eq_getElem?_getD, List.getElem?_set, hik]

theorem setStates_of_le (t : Topology S) (i : Nat) (ss : List S)
    (h : t.nodes.length ≤ i) : setStates t i ss = t := by
  cases t
  simp [setStates, List.set_eq_of_length_le h]

theorem adjacent_setStates (t : Topology S) (i k : Nat) (ss : List S) :
    (getNodeD (setStates t i ss) k).adjacent = (getNodeD t k).adjacent := by
  by_cases hk : k = i
  · subst hk
    by_cases hi : k < t.nodes.length
    · rw [getNodeD_setStates_self t k ss hi]
    · rw [setStates_of_le t k ss (le_of_not_lt hi)]
  · rw [getNodeD_setStates_ne t i k ss hk]

theorem sum_set_nat (l : List Nat) :
    ∀ (i a : Nat), i < l.length → (l.set i a).sum + l.getD i 0 = l.sum + a := by
  induction l with
  | nil => intro i a h; simp at h
  | cons x xs ih =>
    intro i a h
    cases i with
    | zero =>
      have hs : (x :: xs).set 0 a = a :: xs := rfl
      have hg : (x :: xs).getD 0 0 = x := rfl
      rw [hs, hg, List.sum_cons, List.sum_cons]
      omega
    | succ n =>
      have hn : n < xs.length := by simpa using h
      have ih2 := ih n a hn
      have hs : (x :: xs).set (n + 1) a = x :: xs.set n a := rfl
      have hg : (x :: xs).getD (n + 1) 0 = xs.getD n 0 := by
        simp [List.getD_eq_getElem?_getD]
      rw [hs, hg, List.sum_cons, List.sum_cons]
      omega

theorem totalCount_setStates (t : Topology S) (i : Nat) (ss : List S)
    (h : i < t.nodes.length) :
    totalCount (setStates t i ss) + (getNodeD t i).states.length
      = totalCount t + ss.length := by
  have hmap : (List.map (fun nd => nd.states.length) t.nodes).getD i 0
      = (getNodeD t i).states.length := by
    rw [getNodeD_eq_getElem t i h, List.getD_eq_getElem?_getD, List.getElem?_map,
      List.getElem?_eq_getElem h]
    rfl
  have hlen : i < (List.map (fun nd : Node S => nd.states.length) t.nodes).length := by
    simpa using h
  have := sum_set_nat (List.map (fun nd => nd.states.length) t.nodes) i ss.length hlen
  simp only [totalCount, setStates, List.map_set] at *
  omega

theorem totalCount_setStates_le (t : Topology S) (i : Nat) (ss : List S)
    (h : ss.length ≤ (getNodeD t i).states.length) :
    totalCount (setStates t i ss) ≤ totalCount t := by
  by_cases hi : i < t.nodes.length
  · have := totalCount_setStates t i ss hi
    omega
  · rw [setStates_of_le t i ss (le_of_not_lt hi)]

theorem totalCount_setStates_lt (t : Topology S) (i : Nat) (ss : List S)
    (hi : i < t.nodes.length) (h : ss.length < (getNodeD t i).states.length) :
    totalCount (setStates t i ss) < totalCount t := by
  have := totalCount_setStates t i ss hi
  omega

/-! Lemmas about `reduceStates`. -/

theorem reduceStates_fst (t : Topology S) (i : Nat) :
    (reduceStates t i).1
      = setStates t i ((getNodeD t i).states.filter fun s => isPlaceable t i s) := by
  simp only [reduceStates]
  split <;> rfl

theorem reduceStates_nodes_length (t : Topology S) (i : Nat) :
    (reduceStates t i).1.nodes.length = t.nodes.length := by
  rw [reduceStates_fst]; exact setStates_nodes_length t i _

theorem reduceStates_compatible (t : Topology S) (i : Nat) :
    (reduceStates t i).1.compatible = t.compatible := by
  rw [reduceStates_fst]; rfl

theorem reduceStates_adjacent (t : Topology S) (i k : Nat) :
    (getNodeD (reduceStates t i).1 k).adjacent = (getNodeD t k).adjacent := by
  rw [reduceStates_fst]; exact adjacent_setStates t i k _

theorem totalCount_reduceStates_le (t : Topology S) (i : Nat) :
    totalCount (reduceStates t i).1 ≤ totalCount t := by
  rw [reduceStates_fst]
  exact totalCount_setStates_le t i _ (List.length_filter_le _ _)

theorem reduceStates_ok_lt (t : Topology S) (i : Nat) (ch : Bool)
    (h : (reduceStates t i).2 = .ok ch) : i < t.nodes.length := by
  by_cases hi : i < t.nodes.length
  · exact hi
  · exfalso
    have h0 : getNodeD t i = ⟨[], []⟩ := getNodeD_of_le t i (le_of_not_lt hi)
    simp [reduceStates, h0] at h

/-- C2: `collapseNode` with a state outside the candidate set of the node
raises `invalidForcedState` and returns the topology completely unchanged
(no node mutated). -/
theorem collapseNode_invalid [DecidableEq S] (t : Topology S) (i : Nat) (s : S)
    (h : s ∉ (getNodeD t i).states) :
    collapseNode t i s = some (t, .error .invalidForcedState) := by
  have hf : (getNodeD t i).states.find? (fun x => x == s) = none := by
    rw [List.find?_eq_none]
    intro x hx
    simp only [beq_iff_eq]
    exact fun hxs => h (hxs ▸ hx)
  simp [collapseNode, hf]

/-- Witness for C2 at a concrete topology: `true` is not a candidate of the
single node of `exSingle`. -/
theorem collapseNode_invalid_wit :
    true ∉ (getNodeD exSingle 0).states ∧
      collapseNode exSingle 0 true = some (exSingle, .error .invalidForcedState) :=
  ⟨by decide, collapseNode_invalid exSingle 0 true (by decide)⟩

/-- C10: when no candidate of node `i` is placeable, `reduceStates` raises
`noValidStates` having already overwritten node `i` with the empty candidate
set; the node stays mutated (all other nodes untouched), so the error is not
atomic at the node level. -/
theorem reduceStates_error_mutates (t : Topology S) (i : Nat)
    (h : (getNodeD t i).states.filter (fun s => isPlaceable t i s) = []) :
    (reduceStates t i).2 = .error .noValidStates ∧
      (getNodeD (reduceStates t i).1 i).states = [] ∧
      ∀ k, k ≠ i → getNodeD (reduceStates t i).1 k = getNodeD t k := by
  refine ⟨?_, ?_, ?_⟩
  · simp only [reduceStates, h]
    rfl
  · rw [reduceStates_fst, h]
    by_cases hi : i < t.nodes.length
    · rw [getNodeD_setStates_self t i [] hi]
    · rw [setStates_of_le t i [] (le_of_not_lt hi),
        getNodeD_of_le t i (le_of_not_lt hi)]
  · intro k hk
    rw [reduceStates_fst]
    exact getNodeD_setStates_ne t i k _ hk

/-- Witness for C10 at a concrete topology: node `0` of `exRed` has no
placeable candidate; after the failing reduction its candidate set is empty
while node `1` is untouched. -/
theorem reduceStates_error_mutates_wit :
    (getNodeD exRed 0).states.filter (fun s => isPlaceable exRed 0 s) = [] ∧
      ((reduceStates exRed 0).2 = .error .noValidStates ∧
        (getNodeD (reduceStates exRed 0).1 0).states = [] ∧
        ∀ k, k ≠ 0 → getNodeD (reduceStates exRed 0).1 k = getNodeD exRed k) :=
  ⟨by decide, reduceStates_error_mutates exRed 0 (by decide)⟩

/-- Membership of a defaulted list access whose default is itself a member. -/
theorem getD_self_mem {α : Type} (l : List α) (n : Nat) (d : α) (hd : d ∈ l) :
    l.getD n d ∈ l := by
  rcases Nat.lt_or_ge n l.length with hn | hn
  · rw [List.getD_eq_getElem?_getD, List.getElem?_eq_getElem hn]
    exact List.getElem_mem hn
  · rw [List.getD_eq_getElem?_getD, List.getElem?_eq_none hn]
    exact hd

/-- C5: a state returned by `getState` has strictly positive weight (a state
missing from the weight map counting as weight `1`) and is placeable; and
when no candidate of the node is both positively weighted and placeable,
`getState` raises `noValidStates` instead of returning. -/
theorem getState_spec (t : Topology S) (i : Nat) (rng : Rng) :
    (∀ s rng2, getState t i rng = .ok (s, rng2) →
      0 < weightOf t s ∧ isPlaceable t i s = true) ∧
    ((∀ s ∈ (getNodeD t i).states, ¬(0 < weightOf t s ∧ isPlaceable t i s = true)) →
      getState t i rng = .error .noValidStates) := by
  cases hfil : (getNodeD t i).states.filter
      (fun s => decide (0 < weightOf t s) && isPlaceable t i s) with
  | nil =>
    constructor
    · intro s rng2 hok
      simp only [getState, hfil] at hok
      exact Except.noConfusion hok
    · intro _
      simp only [getState, hfil]
  | cons a0 rest =>
    constructor
    · intro s rng2 hok
      simp only [getState, hfil, Except.ok.injEq, Prod.mk.injEq] at hok
      have hmem : s ∈ a0 :: rest := by
        rw [← hok.1]
        exact getD_self_mem _ _ _ (List.mem_cons_self a0 rest)
      rw [← hfil] at hmem
      have := (List.mem_filter.mp hmem).2
      simp only [Bool.and_eq_true, decide_eq_true_eq] at this
      exact this
    · intro hall
      exfalso
      have : (getNodeD t i).states.filter
          (fun s => decide (0 < weightOf t s) && isPlaceable t i s) = [] := by
        rw [List.filter_eq_nil_iff]
        intro s hs
        have := hall s hs
        simp only [Bool.and_eq_true, decide_eq_true_eq]
        exact fun hc => this ⟨hc.1, hc.2⟩
      rw [this] at hfil
      exact List.noConfusion hfil

/-- Witness for C5 at concrete topologies: on `exZeroWeight` the sampled
state is `false` (weight `1 > 0`, placeable); on `exAllZero` every candidate
has weight `0` and `getState` raises `noValidStates`. -/
theorem getState_spec_wit :
    (0 < weightOf exZeroWeight false ∧ isPlaceable exZeroWeight 0 false = true) ∧
      getState exAllZero 0 rngZero = .error .noValidStates :=
  ⟨(getState_spec exZeroWeight 0 rngZero).1 false ⟨streamZero, 1⟩ rfl,
    (getState_spec exAllZero 0 rngZero).2 (by decide)⟩

/-! Coordinate arithmetic of the Cartesian topology. -/

theorem cartCoord_cartIndex :
    ∀ (coord size : List Nat), coord.length = size.length →
      (∀ a, a < size.length → coord.getD a 0 < size.getD a 0) →
      cartCoord size (cartIndex coord size) = coord := by
  intro coord
  induction coord with
  | nil =>
    intro size hlen _
    have hs : size = [] := List.length_eq_zero.mp (by simpa using hlen.symm)
    subst hs
    rfl
  | cons c cs ih =>
    intro size hlen hv
    cases size with
    | nil => simp at hlen
    | cons s ss =>
      have hc : c < s := by simpa using hv 0 (by simp)
      have hlen2 : cs.length = ss.length := by simpa using hlen
      have hv2 : ∀ a, a < ss.length → cs.getD a 0 < ss.getD a 0 := by
        intro a ha
        simpa using hv (a + 1) (by simpa using Nat.succ_lt_succ ha)
      have hs0 : 0 < s := Nat.lt_of_le_of_lt (Nat.zero_le c) hc
      have hidx : cartIndex (c :: cs) (s :: ss) = c + s * cartIndex cs ss := rfl
      have hmod : (c + s * cartIndex cs ss) % s = c := by
        rw [Nat.add_mul_mod_self_left, Nat.mod_eq_of_lt hc]
      have hdiv : (c + s * cartIndex cs ss) / s = cartIndex cs ss := by
        rw [Nat.add_mul_div_left _ _ hs0, Nat.div_eq_of_lt hc, Nat.zero_add]
      rw [hidx]
      show ((c + s * cartIndex cs ss) % s)
          :: cartCoord ss ((c + s * cartIndex cs ss) / s) = c :: cs
      rw [hmod, hdiv, ih ss hlen2 hv2]

theorem cartIndex_lt_prod :
    ∀ (coord size : List Nat), coord.length = size.length →
      (∀ a, a < size.length → coord.getD a 0 < size.getD a 0) →
      cartIndex coord size < size.prod := by
  intro coord
  induction coord with
  | nil =>
    intro size hlen _
    have hs : size = [] := List.length_eq_zero.mp (by simpa using hlen.symm)
    subst hs
    simp [cartIndex]
  | cons c cs ih =>
    intro size hlen hv
    cases size with
    | nil => simp at hlen
    | cons s ss =>
      have hc : c < s := by simpa using hv 0 (by simp)
      have hlen2 : cs.length = ss.length := by simpa using hlen
      have hv2 : ∀ a, a < ss.length → cs.getD a 0 < ss.getD a 0 := by
        intro a ha
        simpa using hv (a + 1) (by simpa using Nat.succ_lt_succ ha)
      have hrec : cartIndex cs ss < ss.prod := ih ss hlen2 hv2
      have hidx : cartIndex (c :: cs) (s :: ss) = c + s * cartIndex cs ss := rfl
      rw [hidx, List.prod_cons]
      have h1 : c + s * cartIndex cs ss < s * (cartIndex cs ss + 1) := by
        have : s * (cartIndex cs ss + 1) = s * cartIndex cs ss + s := by ring
        omega
      have h2 : s * (cartIndex cs ss + 1) ≤ s * ss.prod :=
        Nat.mul_le_mul_left s hrec
      omega

theorem cartIndex_cartCoord :
    ∀ (size : List Nat) (i : Nat), i < size.prod →
      cartIndex (cartCoord size i) size = i := by
  intro size
  induction size with
  | nil =>
    intro i hi
    simp only [List.prod_nil] at hi
    interval_cases i
    rfl
  | cons s ss ih =>
    intro i hi
    rw [List.prod_cons] at hi
    rcases Nat.eq_zero_or_pos s with hs | hs
    · subst hs; simp at hi
    · have hdiv : i / s < ss.prod := by
        rw [Nat.div_lt_iff_lt_mul hs]
        exact Nat.lt_of_lt_of_eq hi (Nat.mul_comm s ss.prod)
      show (i % s) + s * cartIndex (cartCoord ss (i / s)) ss = i
      rw [ih (i / s) hdiv, Nat.mod_add_div]

/-- C6: on the Cartesian grid the column-major conversions are mutually
inverse: `getCoord (getIndex c) = c` for every in-range coordinate `c`, and
`getIndex (getCoord i) = i` for every index `i` below the product of the
sizes, in any dimension. -/
theorem cartesian_roundtrip (size coord : List Nat) (i : Nat)
    (hlen : coord.length = size.length)
    (hv : ∀ a, a < size.length → coord.getD a 0 < size.getD a 0)
    (hi : i < size.prod) :
    cartCoord size (cartIndex coord size) = coord ∧
      cartIndex (cartCoord size i) size = i :=
  ⟨cartCoord_cartIndex coord size hlen hv, cartIndex_cartCoord size i hi⟩

/-- Witness for C6 on the 3-dimensional grid of sizes `[2, 3, 4]`. -/
theorem cartesian_roundtrip_wit :
    ([1, 2, 3].length = [2, 3, 4].length ∧
      (∀ a, a < [2, 3, 4].length →
        [1, 2, 3].getD a 0 < [2, 3, 4].getD a 0) ∧
      17 < [2, 3, 4].prod) ∧
    (cartCoord [2, 3, 4] (cartIndex [1, 2, 3] [2, 3, 4]) = [1, 2, 3] ∧
      cartIndex (cartCoord [2, 3, 4] 17) [2, 3, 4] = 17) :=
  ⟨⟨by decide, by decide, by decide⟩,
    cartesian_roundtrip [2, 3, 4] [1, 2, 3] 17 (by decide) (by decide) (by decide)⟩

/-! Access into lists built from two-element blocks per axis. -/

theorem flatMap_pair_length {α β : Type} (f g : α → β) :
    ∀ (l : List α), (l.flatMap fun a => [f a, g a]).length = 2 * l.length := by
  intro l
  induction l with
  | nil => rfl
  | cons x xs ih =>
    simp only [List.flatMap_cons, List.length_append, List.length_cons, ih]
    simp
    omega

theorem flatMap_pair_getD_even {α β : Type} (f g : α → β) (d : β) :
    ∀ (l : List α) (k : Nat),
      (l.flatMap fun a => [f a, g a]).getD (2 * k) d
        = (match l[k]? with | some x => f x | none => d) := by
  intro l
  induction l with
  | nil => intro k; simp
  | cons x xs ih =>
    intro k
    cases k with
    | zero => simp [List.flatMap_cons, List.getD_cons_zero]
    | succ n =>
      rw [show 2 * (n + 1) = 2 * n + 1 + 1 from by ring, List.flatMap_cons]
      simp only [List.cons_append, List.nil_append, List.getD_cons_succ,
        List.getElem?_cons_succ]
      exact ih n

theorem flatMap_pair_getD_odd {α β : Type} (f g : α → β) (d : β) :
    ∀ (l : List α) (k : Nat),
      (l.flatMap fun a => [f a, g a]).getD (2 * k + 1) d
        = (match l[k]? with | some x => g x | none => d) := by
  intro l
  induction l with
  | nil => intro k; simp
  | cons x xs ih =>
    intro k
    cases k with
    | zero => simp [List.flatMap_cons, List.getD_cons_zero, List.getD_cons_succ]
    | succ n =>
      rw [show 2 * (n + 1) + 1 = 2 * n + 1 + 1 + 1 from by ring, List.flatMap_cons]
      simp only [List.cons_append, List.nil_append, List.getD_cons_succ,
        List.getElem?_cons_succ]
      exact ih n

theorem flatMap_pair_countP {α β : Type} (f g : α → β) (p : β → Bool) :
    ∀ (l : List α), (∀ a ∈ l, p (f a) = true ∧ p (g a) = true) →
      (l.flatMap fun a => [f a, g a]).countP p = 2 * l.length := by
  intro l
  induction l with
  | nil => intro _; rfl
  | cons x xs ih =>
    intro h
    have hx := h x (List.mem_cons_self x xs)
    have hxs : ∀ a ∈ xs, p (f a) = true ∧ p (g a) = true :=
      fun a ha => h a (List.mem_cons_of_mem x ha)
    simp only [List.flatMap_cons, List.cons_append, List.nil_append,
      List.countP_cons, ih hxs, hx.1, hx.2, List.length_cons]
    simp
    omega

theorem getNodeD_cartesian (size : List Nat) (per : List Bool) (states : List S)
    (w : S → Option ℚ) (i : Nat) (hi : i < size.prod) :
    getNodeD (cartesianTopology size per states w) i
      = ⟨states, cartAdjacent size per i⟩ := by
  simp [cartesianTopology, getNodeD, List.getD_eq_getElem?_getD,
    List.getElem?_map, List.getElem?_range hi]

theorem negCoord_valid (size c : List Nat) (a : Nat)
    (hlen : c.length = size.length)
    (hv : ∀ b, b < size.length → c.getD b 0 < size.getD b 0)
    (ha : a < size.length) :
    (negCoord size c a).length = size.length ∧
      (∀ b, b < size.length →
        (negCoord size c a).getD b 0 < size.getD b 0) := by
  constructor
  · simp [negCoord, hlen]
  · intro b hb
    by_cases hba : b = a
    · subst hba
      have hblen : b < c.length := hlen ▸ hb
      have hcb := hv b hb
      simp only [List.getD_eq_getElem?_getD] at hcb
      simp only [negCoord, List.getD_eq_getElem?_getD]
      rw [List.getElem?_set, if_pos rfl, if_pos hblen, Option.getD_some]
      split <;> omega
    · have hab : ¬ a = b := fun hab => hba hab.symm
      have hcb := hv b hb
      simp only [List.getD_eq_getElem?_getD] at hcb
      simp only [negCoord, List.getD_eq_getElem?_getD]
      rw [List.getElem?_set, if_neg hab]
      exact hcb

theorem posCoord_valid (size c : List Nat) (a : Nat)
    (hlen : c.length = size.length)
    (hv : ∀ b, b < size.length → c.getD b 0 < size.getD b 0)
    (ha : a < size.length) :
    (posCoord size c a).length = size.length ∧
      (∀ b, b < size.length →
        (posCoord size c a).getD b 0 < size.getD b 0) := by
  constructor
  · simp [posCoord, hlen]
  · intro b hb
    by_cases hba : b = a
    · subst hba
      have hblen : b < c.length := hlen ▸ hb
      have hcb := hv b hb
      simp only [List.getD_eq_getElem?_getD] at hcb
      simp only [posCoord, List.getD_eq_getElem?_getD]
      rw [List.getElem?_set, if_pos rfl, if_pos hblen, Option.getD_some]
      split <;> omega
    · have hab : ¬ a = b := fun hab => hba hab.symm
      have hcb := hv b hb
      simp only [List.getD_eq_getElem?_getD] at hcb
      simp only [posCoord, List.getD_eq_getElem?_getD]
      rw [List.getElem?_set, if_neg hab]
      exact hcb

/-- C8: in a Cartesian topology of any dimension, the node at a valid
coordinate `c` has `2·D` adjacency slots; slot `2a` holds the index of the
coordinate with component `a` decremented (wrapping to `size[a] − 1`),
absent exactly when `c[a] = 0` and axis `a` is not periodic; slot `2a + 1`
holds the index of the coordinate with component `a` incremented (wrapping
to `0`), absent exactly when `c[a] = size[a] − 1` and axis `a` is not
periodic; the wrapped coordinates are the coordinates of the referenced
nodes; and under full periodicity all `2·D` slots are present. -/
theorem cartesian_adjacency (size : List Nat) (per : List Bool) (states : List S)
    (w : S → Option ℚ) (c : List Nat) (a : Nat)
    (adj : List (Option Nat))
    (hadj : adj = (getNodeD (cartesianTopology size per states w)
      (cartIndex c size)).adjacent)
    (hlen : c.length = size.length)
    (hv : ∀ b, b < size.length → c.getD b 0 < size.getD b 0)
    (ha : a < size.length) :
    adj.length = 2 * size.length ∧
    adj.getD (2 * a) none
      = (if c.getD a 0 ≠ 0 ∨ per.getD a false then
          some (cartIndex (negCoord size c a) size) else none) ∧
    adj.getD (2 * a + 1) none
      = (if c.getD a 0 ≠ size.getD a 0 - 1 ∨ per.getD a false then
          some (cartIndex (posCoord size c a) size) else none) ∧
    cartCoord size (cartIndex (negCoord size c a) size) = negCoord size c a ∧
    cartCoord size (cartIndex (posCoord size c a) size) = posCoord size c a ∧
    ((∀ b, b < size.length → per.getD b false = true) →
      adj.countP Option.isSome = 2 * size.length) := by
  have hi : cartIndex c size < size.prod := cartIndex_lt_prod c size hlen hv
  have hcc : cartCoord size (cartIndex c size) = c := cartCoord_cartIndex c size hlen hv
  have hadj2 : adj = (List.range size.length).flatMap fun b =>
      [ if c.getD b 0 ≠ 0 ∨ per.getD b false then
          some (cartIndex (negCoord size c b) size) else none,
        if c.getD b 0 ≠ size.getD b 0 - 1 ∨ per.getD b false then
          some (cartIndex (posCoord size c b) size) else none ] := by
    rw [hadj, getNodeD_cartesian size per states w _ hi]
    simp only [cartAdjacent, hcc]
  obtain ⟨hnl, hnv⟩ := negCoord_valid size c a hlen hv ha
  obtain ⟨hpl, hpv⟩ := posCoord_valid size c a hlen hv ha
  refine ⟨?_, ?_, ?_, ?_, ?_, ?_⟩
  · rw [hadj2, flatMap_pair_length]
    simp
  · rw [hadj2, flatMap_pair_getD_even, List.getElem?_range ha]
  · rw [hadj2, flatMap_pair_getD_odd, List.getElem?_range ha]
  · exact cartCoord_cartIndex _ size hnl hnv
  · exact cartCoord_cartIndex _ size hpl hpv
  · intro hper
    rw [hadj2, flatMap_pair_countP]
    · simp
    · intro b hb
      have hbr : b < size.length := List.mem_range.mp hb
      constructor
      · rw [if_pos (Or.inr (hper b hbr))]; rfl
      · rw [if_pos (Or.inr (hper b hbr))]; rfl

/-- Witness for C8 on the non-periodic 2×2 grid at coordinate `(0, 1)`,
axis `0`. -/
theorem cartesian_adjacency_wit :
    ((getNodeD (cartesianTopology [2, 2] [false, false] [true]
        (fun _ => none)) (cartIndex [0, 1] [2, 2])).adjacent.length = 2 * 2 ∧
      (getNodeD (cartesianTopology [2, 2] [false, false] [true]
        (fun _ => none)) (cartIndex [0, 1] [2, 2])).adjacent.getD 0 none = none) := by
  have h := cartesian_adjacency [2, 2] [false, false] [true] (fun _ => none)
    [0, 1] 0 _ rfl (by decide) (by decide) (by decide)
  refine ⟨by simpa using h.1, ?_⟩
  have h2 := h.2.1
  rw [if_neg (by decide)] at h2
  simpa using h2

/-- First index scan: `List.find?` over `range n` returns the least index
satisfying the predicate. -/
theorem find?_range_eq_some {p : Nat → Bool} :
    ∀ (n i0 : Nat), p i0 = true → i0 < n → (∀ j, j < i0 → p j = false) →
      (List.range n).find? p = some i0 := by
  intro n
  induction n with
  | zero => intro i0 _ h _; omega
  | succ m ih =>
    intro i0 hp hlt hmin
    rw [List.range_succ, List.find?_append]
    rcases Nat.lt_or_ge i0 m with h | h
    · rw [ih i0 hp h hmin]
      rfl
    · have hi0 : m = i0 := by omega
      subst hi0
      have hnone : (List.range m).find? p = none := by
        rw [List.find?_eq_none]
        intro x hx
        simp [hmin x (List.mem_range.mp hx)]
      rw [hnone]
      simp [List.find?, hp]

/-- C9: the compatibility predicate installed by the per-axis-rules
constructor scans for the direction `i` with `a.adjacent[i] = b` and
`b.adjacent[i XOR 1] = a`; at the first such `i` it evaluates
`rule[i/2](sa, sb)` on the positive side (`i` odd) and `rule[i/2](sb, sa)`
on the negative side, and it returns `false` when no direction links the
two nodes. -/
theorem cartesianRules_compatible (size : List Nat) (states : List S)
    (rules : List (S → S → Bool)) (per : List Bool) (w : S → Option ℚ)
    (ia ib : Nat) (sa sb : S) :
    ((∀ i, i < 2 * rules.length →
        ¬((cartAdjacent size per ia).getD i none = some ib ∧
          (cartAdjacent size per ib).getD (i ^^^ 1) none = some ia)) →
      (cartesianRules size states rules per w).compatible ia sa ib sb = false) ∧
    (∀ i0, i0 < 2 * rules.length →
      (cartAdjacent size per ia).getD i0 none = some ib →
      (cartAdjacent size per ib).getD (i0 ^^^ 1) none = some ia →
      (∀ j, j < i0 →
        ¬((cartAdjacent size per ia).getD j none = some ib ∧
          (cartAdjacent size per ib).getD (j ^^^ 1) none = some ia)) →
      (cartesianRules size states rules per w).compatible ia sa ib sb
        = (if i0 % 2 = 1 then (rules.getD (i0 / 2) fun _ _ => false) sa sb
           else (rules.getD (i0 / 2) fun _ _ => false) sb sa)) := by
  constructor
  · intro hnone
    have hfind : ((List.range (2 * rules.length)).find? fun i =>
        ((cartAdjacent size per ia).getD i none == some ib) &&
          ((cartAdjacent size per ib).getD (i ^^^ 1) none == some ia)) = none := by
      rw [List.find?_eq_none]
      intro x hx
      have hx2 := hnone x (List.mem_range.mp hx)
      simp only [Bool.and_eq_true, beq_iff_eq]
      exact fun hc => hx2 ⟨hc.1, hc.2⟩
    show compatRules rules (cartAdjacent size per) ia sa ib sb = false
    simp only [compatRules, hfind]
  · intro i0 hi0 hA hB hmin
    have hfind : ((List.range (2 * rules.length)).find? fun i =>
        ((cartAdjacent size per ia).getD i none == some ib) &&
          ((cartAdjacent size per ib).getD (i ^^^ 1) none == some ia)) = some i0 := by
      apply find?_range_eq_some _ i0 _ hi0
      · intro j hj
        have hj2 := hmin j hj
        rw [Bool.eq_false_iff]
        simp only [ne_eq, Bool.and_eq_true, beq_iff_eq]
        exact fun hc => hj2 ⟨hc.1, hc.2⟩
      · simp only [Bool.and_eq_true, beq_iff_eq]
        exact ⟨hA, hB⟩
    show compatRules rules (cartAdjacent size per) ia sa ib sb = _
    simp only [compatRules, hfind]

/-- Witness for C9 on a 1-dimensional 2-cell grid with the single rule
`fun a b => a && b`: cells `0` and `1` are linked through direction `1`
(the positive side), so the rule is applied as `rule(sa, sb)`. -/
theorem cartesianRules_compatible_wit :
    ((cartAdjacent [2] [false] 0).getD 1 none = some 1 ∧
      (cartAdjacent [2] [false] 1).getD (1 ^^^ 1) none = some 0) ∧
    (cartesianRules [2] [true, false] [fun a b => a && b] [false]
        (fun _ => none)).compatible 0 true 1 true
      = (if 1 % 2 = 1 then
          (([fun a b => a && b] : List (Bool → Bool → Bool)).getD (1 / 2)
            fun _ _ => false) true true
        else
          (([fun a b => a && b] : List (Bool → Bool → Bool)).getD (1 / 2)
            fun _ _ => false) true true) :=
  ⟨⟨by decide, by decide⟩,
    (cartesianRules_compatible [2] [true, false] [fun a b => a && b] [false]
      (fun _ => none) 0 1 true true).2 1 (by decide) (by decide) (by decide)
      (by decide)⟩

/-! Characterisation of the minimum-entropy fold. -/

theorem minFold_aux :
    ∀ (l : List Nat) (m : Nat), m ≠ 1 →
      ∃ k, l.foldl minEntropyStep (some m) = some k ∧ k ≠ 1 ∧
        (k = m ∨ k ∈ l) ∧ k ≤ m ∧ (∀ e ∈ l, e ≠ 1 → k ≤ e) := by
  intro l
  induction l with
  | nil =>
    intro m hm
    exact ⟨m, rfl, hm, Or.inl rfl, Nat.le_refl m, by simp⟩
  | cons x xs ih =>
    intro m hm
    rw [List.foldl_cons]
    by_cases hcond : x < m ∧ x ≠ 1
    · have hstep : minEntropyStep (some m) x = some x := by
        unfold minEntropyStep
        rw [if_pos (by simp [hcond.1, hcond.2])]
      rw [hstep]
      obtain ⟨k, hk, hk1, hkm, hkle, hkall⟩ := ih x hcond.2
      refine ⟨k, hk, hk1, ?_, Nat.le_trans hkle (Nat.le_of_lt hcond.1), ?_⟩
      · rcases hkm with rfl | hmem
        · exact Or.inr (List.mem_cons_self k xs)
        · exact Or.inr (List.mem_cons_of_mem x hmem)
      · intro e he he1
        rcases List.mem_cons.mp he with rfl | hmem
        · exact hkle
        · exact hkall e hmem he1
    · have hstep : minEntropyStep (some m) x = some m := by
        unfold minEntropyStep
        rw [if_neg]
        simp only [Bool.and_eq_true, decide_eq_true_eq, bne_iff_ne, ne_eq]
        exact fun hc => hcond ⟨hc.1, hc.2⟩
      rw [hstep]
      obtain ⟨k, hk, hk1, hkm, hkle, hkall⟩ := ih m hm
      refine ⟨k, hk, hk1, hkm.imp id (List.mem_cons_of_mem x), hkle, ?_⟩
      intro e he he1
      rcases List.mem_cons.mp he with rfl | hmem
      · have hxm : ¬ e < m := fun hlt => hcond ⟨hlt, he1⟩
        omega
      · exact hkall e hmem he1

theorem minFold_some (l : List Nat) (hx : ∃ e ∈ l, e ≠ 1) :
    ∃ k, l.foldl minEntropyStep none = some k ∧ k ≠ 1 ∧ k ∈ l ∧
      ∀ e ∈ l, e ≠ 1 → k ≤ e := by
  induction l with
  | nil =>
    obtain ⟨e, he, _⟩ := hx
    exact absurd he (List.not_mem_nil e)
  | cons x xs ih =>
    rw [List.foldl_cons]
    by_cases hx1 : x = 1
    · subst hx1
      have hstep : minEntropyStep none 1 = none := by
        unfold minEntropyStep
        rw [if_neg (by simp)]
      rw [hstep]
      have hxs : ∃ e ∈ xs, e ≠ 1 := by
        obtain ⟨e, he, he1⟩ := hx
        rcases List.mem_cons.mp he with rfl | hmem
        · exact absurd rfl he1
        · exact ⟨e, hmem, he1⟩
      obtain ⟨k, hk, hk1, hkmem, hkall⟩ := ih hxs
      refine ⟨k, hk, hk1, List.mem_cons_of_mem _ hkmem, ?_⟩
      intro e he he1
      rcases List.mem_cons.mp he with rfl | hmem
      · exact absurd rfl he1
      · exact hkall e hmem he1
    · have hstep : minEntropyStep none x = some x := by
        unfold minEntropyStep
        rw [if_pos (by simp [hx1])]
      rw [hstep]
      obtain ⟨k, hk, hk1, hkm, hkle, hkall⟩ := minFold_aux xs x hx1
      refine ⟨k, hk, hk1, ?_, ?_⟩
      · rcases hkm with rfl | hmem
        · exact List.mem_cons_self k xs
        · exact List.mem_cons_of_mem x hmem
      · intro e he he1
        rcases List.mem_cons.mp he with rfl | hmem
        · exact hkle
        · exact hkall e hmem he1

/-- Defaulted access below the length does not depend on the default. -/
theorem getD_lt_irrel {α : Type} (l : List α) (n : Nat) (hn : n < l.length)
    (d1 d2 : α) : l.getD n d1 = l.getD n d2 := by
  rw [List.getD_eq_getElem?_getD, List.getD_eq_getElem?_getD,
    List.getElem?_eq_getElem hn]
  rfl

/-- C4 counterexample: in `exEmptyPair` node `1` has two candidates, so the
claim as stated demands `k = 2` (the minimum over nodes with at least `2`
candidates) and a returned node with `2` candidates; `getMinEntropy` instead
returns node `0`, whose candidate set is empty, because the scan skips only
nodes of size exactly `1`. -/
theorem getMinEntropy_picks_empty :
    (getMinEntropy exEmptyPair rngZero).map Prod.fst = some 0 ∧
      (getNodeD exEmptyPair 0).states.length = 0 ∧
      (getNodeD exEmptyPair 1).states.length = 2 :=
  ⟨rfl, rfl, rfl⟩

/-- Full characterisation of `getMinEntropy` when some node has size `≠ 1`:
the minimum is taken over all nodes of size `≠ 1`, the pick is one draw
modulo the number of minimal nodes, and the generator advances once. -/
theorem getMinEntropy_core (t : Topology S) (rng : Rng)
    (h : ∃ nd ∈ t.nodes, nd.states.length ≠ 1) :
    ∃ i rng2, getMinEntropy t rng = some (i, rng2) ∧
      rng2 = ⟨rng.stream, rng.pos + 1⟩ ∧
      i < t.nodes.length ∧
      (getNodeD t i).states.length ≠ 1 ∧
      (∀ j, j < t.nodes.length → (getNodeD t j).states.length ≠ 1 →
        (getNodeD t i).states.length ≤ (getNodeD t j).states.length) ∧
      i ∈ (List.range t.nodes.length).filter
        (fun j => (getNodeD t j).states.length == (getNodeD t i).states.length) ∧
      i = ((List.range t.nodes.length).filter
          (fun j => (getNodeD t j).states.length == (getNodeD t i).states.length)).getD
        (rng.stream rng.pos %
          ((List.range t.nodes.length).filter
            (fun j =>
              (getNodeD t j).states.length == (getNodeD t i).states.length)).length)
        0 := by
  have hlens : ∃ e ∈ t.nodes.map (fun nd => nd.states.length), e ≠ 1 := by
    obtain ⟨nd, hnd, h1⟩ := h
    exact ⟨nd.states.length, List.mem_map.mpr ⟨nd, hnd, rfl⟩, h1⟩
  obtain ⟨k, hk, hk1, hkmem, hkall⟩ :=
    minFold_some (t.nodes.map fun nd => nd.states.length) hlens
  have hfold : t.nodes.foldl (fun acc nd => minEntropyStep acc nd.states.length) none
      = some k := by
    rw [← List.foldl_map (fun nd : Node S => nd.states.length) minEntropyStep]
    exact hk
  have hlen : ∀ j, j < t.nodes.length →
      (getNodeD t j).states.length ∈ t.nodes.map fun nd => nd.states.length := by
    intro j hj
    exact List.mem_map.mpr ⟨t.nodes[j], List.getElem_mem hj,
      by rw [getNodeD_eq_getElem t j hj]⟩
  obtain ⟨n, hn, hval⟩ := List.mem_iff_getElem.mp hkmem
  rw [List.length_map] at hn
  have hnk : (getNodeD t n).states.length = k := by
    rw [getNodeD_eq_getElem t n hn]
    rw [List.getElem_map] at hval
    exact hval
  have hmemfil : n ∈ (List.range t.nodes.length).filter
      (fun i => some (getNodeD t i).states.length
        == t.nodes.foldl (fun acc nd => minEntropyStep acc nd.states.length) none) := by
    rw [List.mem_filter]
    refine ⟨List.mem_range.mpr hn, ?_⟩
    rw [hfold, hnk]
    simp
  cases hmn : (List.range t.nodes.length).filter
      (fun i => some (getNodeD t i).states.length
        == t.nodes.foldl (fun acc nd => minEntropyStep acc nd.states.length) none) with
  | nil => rw [hmn] at hmemfil; exact absurd hmemfil (List.not_mem_nil n)
  | cons m0 rest =>
    have hres : getMinEntropy t rng
        = some ((m0 :: rest).getD (rng.next.1 % (m0 :: rest).length) m0, rng.next.2) := by
      simp only [getMinEntropy, hmn]
    set iSel := (m0 :: rest).getD (rng.next.1 % (m0 :: rest).length) m0 with hiSel
    have hmodlt : rng.next.1 % (m0 :: rest).length < (m0 :: rest).length :=
      Nat.mod_lt _ (by simp)
    have himem : iSel ∈ m0 :: rest :=
      getD_self_mem _ _ _ (List.mem_cons_self m0 rest)
    have himem2 : iSel ∈ (List.range t.nodes.length).filter
        (fun i => some (getNodeD t i).states.length
          == t.nodes.foldl (fun acc nd => minEntropyStep acc nd.states.length) none) := by
      rw [hmn]; exact himem
    have hirange : iSel < t.nodes.length :=
      List.mem_range.mp (List.mem_filter.mp himem2).1
    have hieq : (getNodeD t iSel).states.length = k := by
      have h2 := (List.mem_filter.mp himem2).2
      rw [hfold] at h2
      simpa using h2
    have hsame : (List.range t.nodes.length).filter
        (fun j => (getNodeD t j).states.length == (getNodeD t iSel).states.length)
        = m0 :: rest := by
      rw [← hmn]
      apply List.filter_congr
      intro x _
      rw [hieq, hfold, Option.some_beq_some]
    refine ⟨iSel, rng.next.2, hres, rfl, hirange, ?_, ?_, ?_, ?_⟩
    · rw [hieq]; exact hk1
    · intro j hj hj1
      rw [hieq]
      exact hkall _ (hlen j hj) hj1
    · rw [hsame]
      exact himem
    · rw [hsame]
      exact hiSel.trans (getD_lt_irrel _ _ hmodlt m0 0)

/-- C4 (amended): whenever some node has candidate-set size different from
`1`, `getMinEntropy` advances the generator exactly once and returns the
node at position `draw mod count` in the storage-ordered list of nodes whose
size attains `k`, where `k` is the minimum size over nodes of size `≠ 1`
(so an empty node can win the minimum, not only sizes `≥ 2`). -/
theorem getMinEntropy_min (t : Topology S) (rng : Rng)
    (h : ∃ nd ∈ t.nodes, nd.states.length ≠ 1) :
    ∃ i rng2, getMinEntropy t rng = some (i, rng2) ∧
      rng2 = ⟨rng.stream, rng.pos + 1⟩ ∧
      i < t.nodes.length ∧
      (getNodeD t i).states.length ≠ 1 ∧
      (∀ j, j < t.nodes.length → (getNodeD t j).states.length ≠ 1 →
        (getNodeD t i).states.length ≤ (getNodeD t j).states.length) ∧
      i ∈ (List.range t.nodes.length).filter
        (fun j => (getNodeD t j).states.length == (getNodeD t i).states.length) ∧
      i = ((List.range t.nodes.length).filter
          (fun j => (getNodeD t j).states.length == (getNodeD t i).states.length)).getD
        (rng.stream rng.pos %
          ((List.range t.nodes.length).filter
            (fun j =>
              (getNodeD t j).states.length == (getNodeD t i).states.length)).length)
        0 :=
  getMinEntropy_core t rng h

/-- Witness for C4 at the concrete topology `exEmptyPair` (node sizes `0`
and `2`). -/
theorem getMinEntropy_min_wit :
    (∃ nd ∈ exEmptyPair.nodes, nd.states.length ≠ 1) ∧
      (∃ i rng2, getMinEntropy exEmptyPair rngZero = some (i, rng2) ∧
        rng2 = ⟨rngZero.stream, rngZero.pos + 1⟩ ∧
        i < exEmptyPair.nodes.length ∧
        (getNodeD exEmptyPair i).states.length ≠ 1 ∧
        (∀ j, j < exEmptyPair.nodes.length →
          (getNodeD exEmptyPair j).states.length ≠ 1 →
          (getNodeD exEmptyPair i).states.length
            ≤ (getNodeD exEmptyPair j).states.length) ∧
        i ∈ (List.range exEmptyPair.nodes.length).filter
          (fun j => (getNodeD exEmptyPair j).states.length
            == (getNodeD exEmptyPair i).states.length) ∧
        i = ((List.range exEmptyPair.nodes.length).filter
            (fun j => (getNodeD exEmptyPair j).states.length
              == (getNodeD exEmptyPair i).states.length)).getD
          (rngZero.stream rngZero.pos %
            ((List.range exEmptyPair.nodes.length).filter
              (fun j => (getNodeD exEmptyPair j).states.length
                == (getNodeD exEmptyPair i).states.length)).length)
          0) :=
  ⟨by decide, getMinEntropy_min exEmptyPair rngZero (by decide)⟩

/-! Properties of the BFS propagation. -/

theorem stepNeighbours_news :
    ∀ (slots : List (Option Nat)) (t : Topology S) (q v : List Nat)
      (t2 : Topology S) (q2 v2 : List Nat) (err : Option Err),
      stepNeighbours t slots q v = (t2, q2, v2, err) →
      ∃ news, q2 = q ++ news ∧ v2 = v ++ news ∧ news.Nodup ∧
        (∀ x ∈ news, x ∉ v) ∧ (∀ x ∈ news, x < t.nodes.length) ∧
        t2.nodes.length = t.nodes.length ∧ totalCount t2 ≤ totalCount t := by
  intro slots
  induction slots with
  | nil =>
    intro t q v t2 q2 v2 err h
    simp only [stepNeighbours, Prod.mk.injEq] at h
    obtain ⟨h1, h2, h3, _⟩ := h
    subst h1; subst h2; subst h3
    exact ⟨[], by simp, by simp, List.nodup_nil, by simp, by simp, rfl, Nat.le_refl _⟩
  | cons slot rest ih =>
    intro t q v t2 q2 v2 err h
    cases slot with
    | none =>
      simp only [stepNeighbours] at h
      exact ih t q v t2 q2 v2 err h
    | some j =>
      simp only [stepNeighbours] at h
      by_cases hv : j ∈ v
      · rw [if_pos hv] at h
        exact ih t q v t2 q2 v2 err h
      · rw [if_neg hv] at h
        rcases hred : reduceStates t j with ⟨t3, r⟩
        rw [hred] at h
        have hlen3 : t3.nodes.length = t.nodes.length := by
          have := reduceStates_nodes_length t j
          rw [hred] at this
          exact this
        have hcount3 : totalCount t3 ≤ totalCount t := by
          have := totalCount_reduceStates_le t j
          rw [hred] at this
          exact this
        cases r with
        | error e =>
          simp only [Prod.mk.injEq] at h
          obtain ⟨h1, h2, h3, _⟩ := h
          subst h1; subst h2; subst h3
          exact ⟨[], by simp, by simp, List.nodup_nil, by simp, by simp, hlen3, hcount3⟩
        | ok changed =>
          cases changed with
          | false =>
            replace h : stepNeighbours t3 rest q v = (t2, q2, v2, err) := h
            obtain ⟨news, hq, hv2, hnd, hnin, hrange, hlen, hcount⟩ :=
              ih t3 q v t2 q2 v2 err h
            refine ⟨news, hq, hv2, hnd, hnin, ?_, ?_, ?_⟩
            · intro x hx
              have := hrange x hx
              omega
            · rw [hlen, hlen3]
            · exact Nat.le_trans hcount hcount3
          | true =>
            replace h : stepNeighbours t3 rest (q ++ [j]) (v ++ [j])
                = (t2, q2, v2, err) := h
            obtain ⟨news, hq, hv2, hnd, hnin, hrange, hlen, hcount⟩ :=
              ih t3 (q ++ [j]) (v ++ [j]) t2 q2 v2 err h
            have hjlt : j < t.nodes.length := by
              apply reduceStates_ok_lt t j true
              rw [hred]
            refine ⟨j :: news, ?_, ?_, ?_, ?_, ?_, ?_, ?_⟩
            · rw [hq]; simp
            · rw [hv2]; simp
            · rw [List.nodup_cons]
              refine ⟨fun hjn => (hnin j hjn) (by simp), hnd⟩
            · intro x hx
              rcases List.mem_cons.mp hx with rfl | hxn
              · exact hv
              · exact fun hxv => (hnin x hxn) (by simp [hxv])
            · intro x hx
              rcases List.mem_cons.mp hx with rfl | hxn
              · exact hjlt
              · have := hrange x hxn
                omega
            · rw [hlen, hlen3]
            · exact Nat.le_trans hcount hcount3

theorem propagateLoop_trace :
    ∀ (fuel : Nat) (t : Topology S) (q v tr : List Nat),
      (tr ++ q).Nodup → (∀ x ∈ tr ++ q, x ∈ v) →
      ∀ (t2 : Topology S) (tr2 : List Nat) (r : Except Err Unit),
        propagateLoop t fuel q v tr = some (t2, tr2, r) → tr2.Nodup := by
  intro fuel
  induction fuel with
  | zero =>
    intro t q v tr _ _ t2 tr2 r h
    simp [propagateLoop] at h
  | succ fuel ih =>
    intro t q v tr hnd hsub t2 tr2 r h
    cases q with
    | nil =>
      simp only [propagateLoop, Option.some.injEq, Prod.mk.injEq] at h
      obtain ⟨_, h2, _⟩ := h
      subst h2
      simpa using hnd
    | cons current qrest =>
      simp only [propagateLoop] at h
      rcases hstep : stepNeighbours t (getNodeD t current).adjacent qrest v
        with ⟨t3, q3, v3, err⟩
      rw [hstep] at h
      obtain ⟨news, hq3, hv3, hndn, hnin, _, _, _⟩ :=
        stepNeighbours_news _ t qrest v t3 q3 v3 err hstep
      cases err with
      | some e =>
        simp only [Option.some.injEq, Prod.mk.injEq] at h
        obtain ⟨_, h2, _⟩ := h
        subst h2
        refine List.Nodup.sublist ?_ hnd
        rw [show tr ++ current :: qrest = (tr ++ [current]) ++ qrest by simp]
        exact List.sublist_append_left _ _
      | none =>
        apply ih t3 q3 v3 (tr ++ [current]) ?_ ?_ t2 tr2 r h
        · rw [hq3]
          rw [show (tr ++ [current]) ++ (qrest ++ news)
            = (tr ++ current :: qrest) ++ news by simp]
          apply List.Nodup.append hnd hndn
          intro x hx1 hx2
          exact (hnin x hx2) (hsub x hx1)
        · intro x hx
          rw [hv3]
          rw [hq3] at hx
          simp only [List.mem_append, List.mem_cons, List.not_mem_nil,
            or_false] at hx
          simp only [List.mem_append, List.mem_cons] at hsub
          simp only [List.mem_append]
          rcases hx with (hx | hx) | (hx | hx)
          · exact Or.inl (hsub x (Or.inl hx))
          · exact Or.inl (hsub x (Or.inr (Or.inl hx)))
          · exact Or.inl (hsub x (Or.inr (Or.inr hx)))
          · exact Or.inr hx

/-- C7: within a single `propagate` call each node of the topology is
processed at most once: the trace of dequeued nodes has no duplicates,
because a node is enqueued only when it is not in the visited set and is
marked visited at the moment it is enqueued. -/
theorem propagate_processes_once (t : Topology S) (start : Nat)
    (t2 : Topology S) (tr : List Nat) (r : Except Err Unit)
    (h : propagate t start = some (t2, tr, r)) : tr.Nodup :=
  propagateLoop_trace _ t [start] [start] [] (by simp) (by simp) t2 tr r h

/-- Witness for C7 on the three-node chain `exChain`: propagation from node
`0` processes nodes `0`, `1`, `2`, each exactly once. -/
theorem propagate_processes_once_wit :
    (propagate exChain 0).isSome = true ∧ ([0, 1, 2] : List Nat).Nodup :=
  ⟨rfl, propagate_processes_once exChain 0
    ((propagate exChain 0).getD (exChain, [], .ok ())).1 [0, 1, 2] (.ok ()) rfl⟩

theorem propagateLoop_le :
    ∀ (fuel : Nat) (t : Topology S) (q v tr : List Nat)
      (t2 : Topology S) (tr2 : List Nat) (r : Except Err Unit),
      propagateLoop t fuel q v tr = some (t2, tr2, r) →
      totalCount t2 ≤ totalCount t ∧ t2.nodes.length = t.nodes.length := by
  intro fuel
  induction fuel with
  | zero =>
    intro t q v tr t2 tr2 r h
    simp [propagateLoop] at h
  | succ fuel ih =>
    intro t q v tr t2 tr2 r h
    cases q with
    | nil =>
      simp only [propagateLoop, Option.some.injEq, Prod.mk.injEq] at h
      obtain ⟨h1, _, _⟩ := h
      subst h1
      exact ⟨Nat.le_refl _, rfl⟩
    | cons current qrest =>
      simp only [propagateLoop] at h
      rcases hstep : stepNeighbours t (getNodeD t current).adjacent qrest v
        with ⟨t3, q3, v3, err⟩
      rw [hstep] at h
      obtain ⟨_, _, _, _, _, _, hlen3, hcount3⟩ :=
        stepNeighbours_news _ t qrest v t3 q3 v3 err hstep
      cases err with
      | some e =>
        simp only [Option.some.injEq, Prod.mk.injEq] at h
        obtain ⟨h1, _, _⟩ := h
        subst h1
        exact ⟨hcount3, hlen3⟩
      | none =>
        obtain ⟨hc, hl⟩ := ih t3 q3 v3 (tr ++ [current]) t2 tr2 r h
        exact ⟨Nat.le_trans hc hcount3, hl.trans hlen3⟩

theorem nodup_lt_length_le (l : List Nat) (N : Nat) (hnd : l.Nodup)
    (hlt : ∀ x ∈ l, x < N) : l.length ≤ N := by
  have hsub : l ⊆ List.range N := fun x hx => List.mem_range.mpr (hlt x hx)
  have := (List.subperm_of_subset hnd hsub).length_le
  simpa using this

theorem propagateLoop_isSome :
    ∀ (fuel : Nat) (t : Topology S) (q v tr : List Nat),
      v.Nodup → (∀ x ∈ v, x < t.nodes.length) → (∀ x ∈ q, x ∈ v) →
      q.length + 2 * (t.nodes.length - v.length) < fuel →
      (propagateLoop t fuel q v tr).isSome = true := by
  intro fuel
  induction fuel with
  | zero =>
    intro t q v tr _ _ _ hm
    omega
  | succ fuel ih =>
    intro t q v tr hvnd hvlt hqv hm
    cases q with
    | nil => simp [propagateLoop]
    | cons current qrest =>
      simp only [propagateLoop]
      rcases hstep : stepNeighbours t (getNodeD t current).adjacent qrest v
        with ⟨t3, q3, v3, err⟩
      obtain ⟨news, hq3, hv3, hndn, hnin, hrangen, hlen3, _⟩ :=
        stepNeighbours_news _ t qrest v t3 q3 v3 err hstep
      cases err with
      | some e => simp
      | none =>
        have hv3nd : v3.Nodup := by
          rw [hv3]
          exact List.Nodup.append hvnd hndn (fun x hx1 hx2 => (hnin x hx2) hx1)
        have hv3lt : ∀ x ∈ v3, x < t3.nodes.length := by
          intro x hx
          rw [hlen3]
          rw [hv3] at hx
          rcases List.mem_append.mp hx with hx | hx
          · exact hvlt x hx
          · exact hrangen x hx
        apply ih t3 q3 v3 (tr ++ [current]) hv3nd hv3lt
        · intro x hx
          rw [hv3]
          rw [hq3] at hx
          rcases List.mem_append.mp hx with hx | hx
          · exact List.mem_append.mpr (Or.inl (hqv x (List.mem_cons_of_mem current hx)))
          · exact List.mem_append.mpr (Or.inr hx)
        · have hv3le : v3.length ≤ t.nodes.length := by
            apply nodup_lt_length_le v3 t.nodes.length hv3nd
            intro x hx
            have := hv3lt x hx
            omega
          have hm2 : qrest.length + 1 + 2 * (t.nodes.length - v.length)
              < fuel + 1 := by
            simpa using hm
          rw [hlen3, hq3, hv3]
          rw [hv3] at hv3le
          simp only [List.length_append]
          simp only [List.length_append] at hv3le
          omega

theorem propagate_isSome (t : Topology S) (start : Nat)
    (h : start < t.nodes.length) : (propagate t start).isSome = true := by
  apply propagateLoop_isSome (2 * t.nodes.length + 2) t [start] [start] []
  · simp
  · simpa using h
  · simp
  · simp only [List.length_cons, List.length_nil]
    omega

/-! Lemmas for the termination of `collapse`. -/

theorem getState_ok_mem (t : Topology S) (i : Nat) (rng : Rng) (s : S) (rng2 : Rng)
    (h : getState t i rng = .ok (s, rng2)) : s ∈ (getNodeD t i).states := by
  cases hfil : (getNodeD t i).states.filter
      (fun s => decide (0 < weightOf t s) && isPlaceable t i s) with
  | nil =>
    simp only [getState, hfil] at h
    exact Except.noConfusion h
  | cons a0 rest =>
    simp only [getState, hfil, Except.ok.injEq, Prod.mk.injEq] at h
    have hmem : s ∈ a0 :: rest := by
      rw [← h.1]
      exact getD_self_mem _ _ _ (List.mem_cons_self a0 rest)
    rw [← hfil] at hmem
    exact List.mem_of_mem_filter hmem

theorem find?_beq_eq [DecidableEq S] (l : List S) (s : S) (h : s ∈ l) :
    l.find? (fun x => x == s) = some s := by
  have hsome : (l.find? fun x => x == s).isSome = true :=
    List.find?_isSome.mpr ⟨s, h, by simp⟩
  obtain ⟨a, ha⟩ := Option.isSome_iff_exists.mp hsome
  have hpa := List.find?_some ha
  rw [ha, eq_of_beq hpa]

theorem isCollapsed_false_exists (t : Topology S) (h : isCollapsed t = false) :
    ∃ nd ∈ t.nodes, nd.states.length ≠ 1 := by
  by_contra hno
  push_neg at hno
  have hall : isCollapsed t = true := by
    simp only [isCollapsed, List.all_eq_true]
    intro nd hnd
    have := hno nd hnd
    simp only [ne_eq, not_not] at this
    simp [this]
  rw [h] at hall
  exact Bool.noConfusion hall

theorem collapseLoop_isSome [DecidableEq S] :
    ∀ (fuel : Nat) (t : Topology S) (rng : Rng),
      totalCount t < fuel → (collapseLoop fuel t rng).isSome = true := by
  intro fuel
  induction fuel with
  | zero =>
    intro t rng h
    omega
  | succ fuel ih =>
    intro t rng hm
    by_cases hcol : isCollapsed t = true
    · simp [collapseLoop, hcol]
    · have hcol2 : isCollapsed t = false := Bool.not_eq_true _ ▸ eq_false_of_ne_true hcol
      obtain ⟨i, rng2, hgme, _, hilt, hine1, _, _, _⟩ :=
        getMinEntropy_core t rng (isCollapsed_false_exists t hcol2)
      cases hgs : getState t i rng2 with
      | error e =>
        have hval : collapseLoop (fuel + 1) t rng = some (t, .error e) := by
          simp only [collapseLoop, hcol2, Bool.false_eq_true, if_false, hgme, hgs]
        rw [hval]
        rfl
      | ok pr =>
        rcases pr with ⟨s, rng3⟩
        have hsmem : s ∈ (getNodeD t i).states := getState_ok_mem t i rng2 s rng3 hgs
        have hlen1 : 1 ≤ (getNodeD t i).states.length := by
          cases hst : (getNodeD t i).states with
          | nil =>
            rw [hst] at hsmem
            exact absurd hsmem (List.not_mem_nil s)
          | cons a l => simp [hst]
        have hlen2 : 2 ≤ (getNodeD t i).states.length := by omega
        have hfind : (getNodeD t i).states.find? (fun x => x == s) = some s :=
          find?_beq_eq _ s hsmem
        have hstart : i < (setStates t i [s]).nodes.length := by
          rw [setStates_nodes_length]
          exact hilt
        obtain ⟨⟨t3, tr3, r3⟩, hprop⟩ :=
          Option.isSome_iff_exists.mp (propagate_isSome (setStates t i [s]) i hstart)
        have hcn : collapseNode t i s = some (t3, r3) := by
          simp only [collapseNode, hfind, hprop]
        have hprop2 : propagateLoop (setStates t i [s])
            (2 * (setStates t i [s]).nodes.length + 2) [i] [i] []
            = some (t3, tr3, r3) := by
          rw [← hprop]
          rfl
        obtain ⟨hc3, _⟩ := propagateLoop_le _ _ _ _ _ _ _ _ hprop2
        have hset : totalCount (setStates t i [s]) < totalCount t := by
          apply totalCount_setStates_lt t i [s] hilt
          simp only [List.length_singleton]
          omega
        cases r3 with
        | error e =>
          have hval : collapseLoop (fuel + 1) t rng = some (t3, .error e) := by
            simp only [collapseLoop, hcol2, Bool.false_eq_true, if_false, hgme,
              hgs, hcn]
          rw [hval]
          rfl
        | ok u =>
          cases u
          have hval : collapseLoop (fuel + 1) t rng = collapseLoop fuel t3 rng3 := by
            simp only [collapseLoop, hcol2, Bool.false_eq_true, if_false, hgme,
              hgs, hcn]
          rw [hval]
          apply ih t3 rng3
          omega

/-- C3: for every topology and every random stream, `collapse` terminates,
returning normally or raising an error (with fuel `totalCount + 1` the loop
always yields a result); moreover a successful `collapseNode` on a picked
node with at least two candidates strictly decreases the total candidate
count, and `propagate` never enlarges it. -/
theorem collapse_terminates [DecidableEq S] (t : Topology S) (stream : Nat → Nat) :
    (collapse t stream).isSome = true ∧
    (∀ (u : Topology S) (i : Nat) (s : S) (u2 : Topology S) (r : Except Err Unit),
      i < u.nodes.length → 2 ≤ (getNodeD u i).states.length →
      s ∈ (getNodeD u i).states → collapseNode u i s = some (u2, r) →
      totalCount u2 < totalCount u) ∧
    (∀ (u : Topology S) (start : Nat) (u2 : Topology S) (tr : List Nat)
      (r : Except Err Unit), propagate u start = some (u2, tr, r) →
      totalCount u2 ≤ totalCount u) := by
  refine ⟨collapseLoop_isSome (totalCount t + 1) t ⟨stream, 0⟩ (Nat.lt_succ_self _),
    ?_, ?_⟩
  · intro u i s u2 r hi hlen hmem hcn
    have hfind : (getNodeD u i).states.find? (fun x => x == s) = some s :=
      find?_beq_eq _ s hmem
    simp only [collapseNode, hfind] at hcn
    rcases hp : propagate (setStates u i [s]) i with _ | ⟨t3, tr3, r3⟩
    · rw [hp] at hcn
      simp at hcn
    · rw [hp] at hcn
      simp only [Option.some.injEq, Prod.mk.injEq] at hcn
      obtain ⟨h1, _⟩ := hcn
      subst h1
      have hp2 : propagateLoop (setStates u i [s])
          (2 * (setStates u i [s]).nodes.length + 2) [i] [i] []
          = some (t3, tr3, r3) := by
        rw [← hp]
        rfl
      obtain ⟨hc3, _⟩ := propagateLoop_le _ _ _ _ _ _ _ _ hp2
      have hset : totalCount (setStates u i [s]) < totalCount u := by
        apply totalCount_setStates_lt u i [s] hi
        simp only [List.length_singleton]
        omega
      omega
  · intro u start u2 tr r hp
    have hp2 : propagateLoop u (2 * u.nodes.length + 2) [start] [start] []
        = some (u2, tr, r) := by
      rw [← hp]
      rfl
    exact (propagateLoop_le _ _ _ _ _ _ _ _ hp2).1

/-- Witness for C3 at concrete runs: forcing node `0` of `exPair` to `false`
drops the total candidate count from `4` to `2`, and propagation over
`exChain` does not increase the count. -/
theorem collapse_terminates_wit :
    totalCount (((collapseNode exPair 0 false).getD (exPair, .ok ())).1)
        < totalCount exPair ∧
      totalCount (((propagate exChain 0).getD (exChain, [], .ok ())).1)
        ≤ totalCount exChain :=
  ⟨(collapse_terminates exPair streamZero).2.1 exPair 0 false _ (.ok ())
      (by decide) (by decide) (by decide) rfl,
    (collapse_terminates exChain streamZero).2.2 exChain 0 _ [0, 1, 2] (.ok ()) rfl⟩

/-! Bridges from the executable side conditions to their propositional
forms. -/

theorem wfAdj_of_B (t : Topology S) (h : wfAdjB t = true) : WfAdj t := by
  intro i j hmem
  by_cases hi : i < t.nodes.length
  · simp only [wfAdjB, List.all_eq_true] at h
    have h2 := h i (List.mem_range.mpr hi) (some j) hmem
    simpa using h2
  · rw [getNodeD_of_le t i (le_of_not_lt hi)] at hmem
    exact absurd hmem (List.not_mem_nil _)

theorem adjSymm_of_B (t : Topology S) (h : adjSymmB t = true) : AdjSymm t := by
  intro i j hmem
  by_cases hi : i < t.nodes.length
  · simp only [adjSymmB, List.all_eq_true] at h
    have h2 := h i (List.mem_range.mpr hi) (some j) hmem
    simpa using h2
  · rw [getNodeD_of_le t i (le_of_not_lt hi)] at hmem
    exact absurd hmem (List.not_mem_nil _)

theorem noSelf_of_B (t : Topology S) (h : noSelfB t = true) : NoSelf t := by
  intro i hmem
  by_cases hi : i < t.nodes.length
  · simp only [noSelfB, List.all_eq_true] at h
    have h1 := h i (List.mem_range.mpr hi)
    simp at h1
    exact h1 hmem
  · rw [getNodeD_of_le t i (le_of_not_lt hi)] at hmem
    exact absurd hmem (List.not_mem_nil _)

theorem inv_of_singletonOkB (t : Topology S) (h : singletonOkB t = true) : Inv t := by
  intro i j sa sb hmem hsi hsj
  by_cases hi : i < t.nodes.length
  · simp only [singletonOkB, List.all_eq_true] at h
    have h1 := h i (List.mem_range.mpr hi)
    simp only [hsi] at h1
    rw [List.all_eq_true] at h1
    have h2 := h1 (some j) hmem
    simpa only [hsj] using h2
  · rw [getNodeD_of_le t i (le_of_not_lt hi)] at hsi
    exact absurd hsi (by simp)

/-- Unfolding of the placeability test: every present neighbour has a
compatible candidate. -/
theorem isPlaceable_spec (t : Topology S) (i : Nat) (s : S)
    (h : isPlaceable t i s = true) :
    ∀ j, some j ∈ (getNodeD t i).adjacent →
      ∃ x ∈ (getNodeD t j).states, t.compatible i s j x = true := by
  intro j hj
  simp only [isPlaceable, List.all_eq_true] at h
  have := h (some j) hj
  simpa [List.any_eq_true] using this

/-! The engine invariant is preserved by every state update the engine
performs. -/

theorem wfAdj_setStates (t : Topology S) (i : Nat) (ss : List S)
    (h : WfAdj t) : WfAdj (setStates t i ss) := by
  intro a b hm
  rw [adjacent_setStates] at hm
  rw [setStates_nodes_length]
  exact h a b hm

theorem adjSymm_setStates (t : Topology S) (i : Nat) (ss : List S)
    (h : AdjSymm t) : AdjSymm (setStates t i ss) := by
  intro a b hm
  rw [adjacent_setStates] at hm
  have := h a b hm
  show some a ∈ (getNodeD (setStates t i ss) b).adjacent
  rw [adjacent_setStates]
  exact this

theorem noSelf_setStates (t : Topology S) (i : Nat) (ss : List S)
    (h : NoSelf t) : NoSelf (setStates t i ss) := by
  intro a hm
  rw [adjacent_setStates] at hm
  exact h a hm

theorem symmCompat_setStates (t : Topology S) (i : Nat) (ss : List S)
    (h : SymmCompat t) : SymmCompat (setStates t i ss) := h

theorem inv_setStates (t : Topology S) (i : Nat) (ss : List S)
    (hplace : ∀ sa, ss = [sa] → isPlaceable t i sa = true)
    (hadj : AdjSymm t) (hself : NoSelf t) (hsym : SymmCompat t)
    (hinv : Inv t) : Inv (setStates t i ss) := by
  by_cases hiN : i < t.nodes.length
  case neg =>
    have heq : setStates t i ss = t := setStates_of_le t i ss (le_of_not_lt hiN)
    rw [heq]
    exact hinv
  case pos =>
  intro i2 j2 sa sb hmem hsi hsj
  rw [adjacent_setStates] at hmem
  show t.compatible i2 sa j2 sb = true
  by_cases hi2 : i2 = i
  · subst hi2
    have hss : ss = [sa] := by
      have hsel := getNodeD_setStates_self t i2 ss hiN
      rw [hsel] at hsi
      exact hsi
    have hpl := hplace sa hss
    by_cases hj2 : j2 = i2
    · subst hj2
      exact absurd hmem (hself j2)
    · have hsj2 : (getNodeD t j2).states = [sb] := by
        rw [← getNodeD_setStates_ne t i2 j2 ss hj2]
        exact hsj
      obtain ⟨x, hx, hcx⟩ := isPlaceable_spec t i2 sa hpl j2 hmem
      have hxb : x = sb := by
        rw [hsj2] at hx
        simpa using hx
      rw [← hxb]
      exact hcx
  · have hsi2 : (getNodeD t i2).states = [sa] := by
      rw [← getNodeD_setStates_ne t i i2 ss hi2]
      exact hsi
    by_cases hj2 : j2 = i
    · subst hj2
      have hss : ss = [sb] := by
        have hsel := getNodeD_setStates_self t j2 ss hiN
        rw [hsel] at hsj
        exact hsj
      have hpl := hplace sb hss
      have hmem2 : some i2 ∈ (getNodeD t j2).adjacent := hadj i2 j2 hmem
      obtain ⟨x, hx, hcx⟩ := isPlaceable_spec t j2 sb hpl i2 hmem2
      have hxa : x = sa := by
        rw [hsi2] at hx
        simpa using hx
      rw [hsym i2 sa j2 sb, ← hxa]
      exact hcx
    · have hsj2 : (getNodeD t j2).states = [sb] := by
        rw [← getNodeD_setStates_ne t i j2 ss hj2]
        exact hsj
      exact hinv i2 j2 sa sb hmem hsi2 hsj2

theorem good_setStates (t : Topology S) (i : Nat) (ss : List S)
    (hplace : ∀ sa, ss = [sa] → isPlaceable t i sa = true)
    (hg : Good t) : Good (setStates t i ss) := by
  obtain ⟨hwf, hadj, hself, hsym, hinv⟩ := hg
  exact ⟨wfAdj_setStates t i ss hwf, adjSymm_setStates t i ss hadj,
    noSelf_setStates t i ss hself, symmCompat_setStates t i ss hsym,
    inv_setStates t i ss hplace hadj hself hsym hinv⟩

theorem good_reduceStates (t : Topology S) (i : Nat) (hg : Good t) :
    Good (reduceStates t i).1 := by
  rw [reduceStates_fst]
  apply good_setStates t i _ ?_ hg
  intro sa hfa
  apply List.of_mem_filter (p := fun s => isPlaceable t i s)
  rw [hfa]
  simp

theorem getState_ok_placeable (t : Topology S) (i : Nat) (rng : Rng) (s : S)
    (rng2 : Rng) (h : getState t i rng = .ok (s, rng2)) :
    isPlaceable t i s = true := by
  cases hfil : (getNodeD t i).states.filter
      (fun s => decide (0 < weightOf t s) && isPlaceable t i s) with
  | nil =>
    simp only [getState, hfil] at h
    exact Except.noConfusion h
  | cons a0 rest =>
    simp only [getState, hfil, Except.ok.injEq, Prod.mk.injEq] at h
    have hmem : s ∈ a0 :: rest := by
      rw [← h.1]
      exact getD_self_mem _ _ _ (List.mem_cons_self a0 rest)
    rw [← hfil] at hmem
    have := List.of_mem_filter hmem
    simp only [Bool.and_eq_true] at this
    exact this.2

theorem good_stepNeighbours :
    ∀ (slots : List (Option Nat)) (t : Topology S) (q v : List Nat)
      (t2 : Topology S) (q2 v2 : List Nat) (err : Option Err),
      stepNeighbours t slots q v = (t2, q2, v2, err) → Good t → Good t2 := by
  intro slots
  induction slots with
  | nil =>
    intro t q v t2 q2 v2 err h hg
    simp only [stepNeighbours, Prod.mk.injEq] at h
    exact h.1 ▸ hg
  | cons slot rest ih =>
    intro t q v t2 q2 v2 err h hg
    cases slot with
    | none =>
      simp only [stepNeighbours] at h
      exact ih t q v t2 q2 v2 err h hg
    | some j =>
      simp only [stepNeighbours] at h
      by_cases hv : j ∈ v
      · rw [if_pos hv] at h
        exact ih t q v t2 q2 v2 err h hg
      · rw [if_neg hv] at h
        rcases hred : reduceStates t j with ⟨t3, r⟩
        rw [hred] at h
        have hg3 : Good t3 := by
          have := good_reduceStates t j hg
          rw [hred] at this
          exact this
        cases r with
        | error e =>
          simp only [Prod.mk.injEq] at h
          exact h.1 ▸ hg3
        | ok changed =>
          cases changed with
          | false =>
            replace h : stepNeighbours t3 rest q v = (t2, q2, v2, err) := h
            exact ih t3 q v t2 q2 v2 err h hg3
          | true =>
            replace h : stepNeighbours t3 rest (q ++ [j]) (v ++ [j])
                = (t2, q2, v2, err) := h
            exact ih t3 (q ++ [j]) (v ++ [j]) t2 q2 v2 err h hg3

theorem good_propagateLoop :
    ∀ (fuel : Nat) (t : Topology S) (q v tr : List Nat)
      (t2 : Topology S) (tr2 : List Nat) (r : Except Err Unit),
      propagateLoop t fuel q v tr = some (t2, tr2, r) → Good t → Good t2 := by
  intro fuel
  induction fuel with
  | zero =>
    intro t q v tr t2 tr2 r h _
    simp [propagateLoop] at h
  | succ fuel ih =>
    intro t q v tr t2 tr2 r h hg
    cases q with
    | nil =>
      simp only [propagateLoop, Option.some.injEq, Prod.mk.injEq] at h
      exact h.1 ▸ hg
    | cons current qrest =>
      simp only [propagateLoop] at h
      rcases hstep : stepNeighbours t (getNodeD t current).adjacent qrest v
        with ⟨t3, q3, v3, err⟩
      rw [hstep] at h
      have hg3 : Good t3 :=
        good_stepNeighbours _ t qrest v t3 q3 v3 err hstep hg
      cases err with
      | some e =>
        simp only [Option.some.injEq, Prod.mk.injEq] at h
        exact h.1 ▸ hg3
      | none =>
        exact ih t3 q3 v3 (tr ++ [current]) t2 tr2 r h hg3

/-! From the invariant to `isCorrect` at the end of a run. -/

theorem isCollapsed_len (t : Topology S) (h : isCollapsed t = true)
    (i : Nat) (hi : i < t.nodes.length) :
    ∃ sa, (getNodeD t i).states = [sa] := by
  simp only [isCollapsed, List.all_eq_true] at h
  have hmem : getNodeD t i ∈ t.nodes := by
    rw [getNodeD_eq_getElem t i hi]
    exact List.getElem_mem hi
  have := h (getNodeD t i) hmem
  have hlen : (getNodeD t i).states.length = 1 := by simpa using this
  exact List.length_eq_one.mp hlen

theorem isCorrect_of_inv (t : Topology S) (hwf : WfAdj t) (hinv : Inv t)
    (hcol : isCollapsed t = true) : isCorrect t = true := by
  simp only [isCorrect, List.all_eq_true]
  intro i hi
  have hiN : i < t.nodes.length := List.mem_range.mp hi
  obtain ⟨sa, hsa⟩ := isCollapsed_len t hcol i hiN
  simp only [hsa]
  rw [List.all_eq_true]
  intro slot hslot
  cases slot with
  | none => rfl
  | some j =>
    have hjN : j < t.nodes.length := hwf i j hslot
    obtain ⟨sb, hsb⟩ := isCollapsed_len t hcol j hjN
    simp only [hsb]
    exact hinv i j sa sb hslot hsa hsb

theorem collapseLoop_good [DecidableEq S] :
    ∀ (fuel : Nat) (t : Topology S) (rng : Rng) (t2 : Topology S),
      Good t → collapseLoop fuel t rng = some (t2, .ok ()) →
      Good t2 ∧ isCollapsed t2 = true := by
  intro fuel
  induction fuel with
  | zero =>
    intro t rng t2 _ h
    simp [collapseLoop] at h
  | succ fuel ih =>
    intro t rng t2 hg h
    by_cases hcol : isCollapsed t = true
    · have hval : collapseLoop (fuel + 1) t rng = some (t, .ok ()) := by
        simp only [collapseLoop, hcol, if_true]
      rw [hval] at h
      simp only [Option.some.injEq, Prod.mk.injEq] at h
      exact ⟨h.1 ▸ hg, h.1 ▸ hcol⟩
    · have hcol2 : isCollapsed t = false := eq_false_of_ne_true hcol
      cases hgme : getMinEntropy t rng with
      | none =>
        have hval : collapseLoop (fuel + 1) t rng = none := by
          simp only [collapseLoop, hcol2, Bool.false_eq_true, if_false, hgme]
        rw [hval] at h
        exact Option.noConfusion h
      | some pr =>
        rcases pr with ⟨i, rng2⟩
        cases hgs : getState t i rng2 with
        | error e =>
          have hval : collapseLoop (fuel + 1) t rng = some (t, .error e) := by
            simp only [collapseLoop, hcol2, Bool.false_eq_true, if_false, hgme, hgs]
          rw [hval] at h
          simp at h
        | ok pr2 =>
          rcases pr2 with ⟨s, rng3⟩
          have hsmem : s ∈ (getNodeD t i).states :=
            getState_ok_mem t i rng2 s rng3 hgs
          have hspl : isPlaceable t i s = true :=
            getState_ok_placeable t i rng2 s rng3 hgs
          have hfind : (getNodeD t i).states.find? (fun x => x == s) = some s :=
            find?_beq_eq _ s hsmem
          have hgset : Good (setStates t i [s]) := by
            apply good_setStates t i [s] ?_ hg
            intro sa hsa
            injection hsa with h1 _
            rw [← h1]
            exact hspl
          cases hcn : collapseNode t i s with
          | none =>
            have hval : collapseLoop (fuel + 1) t rng = none := by
              simp only [collapseLoop, hcol2, Bool.false_eq_true, if_false,
                hgme, hgs, hcn]
            rw [hval] at h
            exact Option.noConfusion h
          | some pr3 =>
            rcases pr3 with ⟨t3, r3⟩
            have hg3 : Good t3 := by
              simp only [collapseNode, hfind] at hcn
              rcases hp : propagate (setStates t i [s]) i with _ | ⟨t4, tr4, r4⟩
              · rw [hp] at hcn
                simp at hcn
              · rw [hp] at hcn
                simp only [Option.some.injEq, Prod.mk.injEq] at hcn
                have hp2 : propagateLoop (setStates t i [s])
                    (2 * (setStates t i [s]).nodes.length + 2) [i] [i] []
                    = some (t4, tr4, r4) := by
                  rw [← hp]
                  rfl
                have := good_propagateLoop _ _ _ _ _ _ _ _ hp2 hgset
                exact hcn.1 ▸ this
            cases r3 with
            | error e =>
              have hval : collapseLoop (fuel + 1) t rng = some (t3, .error e) := by
                simp only [collapseLoop, hcol2, Bool.false_eq_true, if_false,
                  hgme, hgs, hcn]
              rw [hval] at h
              simp at h
            | ok u =>
              cases u
              have hval : collapseLoop (fuel + 1) t rng
                  = collapseLoop fuel t3 rng3 := by
                simp only [collapseLoop, hcol2, Bool.false_eq_true, if_false,
                  hgme, hgs, hcn]
              rw [hval] at h
              exact ih t3 rng3 t2 hg3 h

/-- C1 counterexample: `exPre` is a topology whose two mutually adjacent
nodes are pre-collapsed to incompatible states, so `collapse` returns
normally (its loop never runs) while `isCorrect` is false; the claim as
stated over every topology therefore fails. -/
theorem collapse_not_correct :
    collapse exPre streamZero = some (exPre, .ok ()) ∧ isCorrect exPre = false :=
  ⟨rfl, rfl⟩

/-- C1 (amended): for every topology whose compatibility predicate is
symmetric, whose neighbour references are in range and symmetric, which has
no self-adjacent node, and in which every adjacent pair of already-singleton
nodes is compatible, a normal return of `collapse` leaves every candidate
set a singleton and the whole topology correct: `isCollapsed` and
`isCorrect` both hold. -/
theorem collapse_collapsed_correct [DecidableEq S] (t : Topology S)
    (stream : Nat → Nat) (t2 : Topology S)
    (hwf : wfAdjB t = true) (hadj : adjSymmB t = true)
    (hself : noSelfB t = true) (hsing : singletonOkB t = true)
    (hsym : ∀ i sa j sb, t.compatible i sa j sb = t.compatible j sb i sa)
    (hrun : collapse t stream = some (t2, .ok ())) :
    isCollapsed t2 = true ∧ isCorrect t2 = true := by
  have hg : Good t := ⟨wfAdj_of_B t hwf, adjSymm_of_B t hadj, noSelf_of_B t hself,
    hsym, inv_of_singletonOkB t hsing⟩
  obtain ⟨hg2, hcol⟩ := collapseLoop_good (totalCount t + 1) t ⟨stream, 0⟩ t2 hg hrun
  exact ⟨hcol, isCorrect_of_inv t2 hg2.1 hg2.2.2.2.2 hcol⟩

/-- Witness for the amended C1 on the concrete two-node topology `exPair`
(all side conditions hold and `collapse` succeeds). -/
theorem collapse_collapsed_correct_wit :
    isCollapsed (((collapse exPair streamZero).getD (exPair, .ok ())).1) = true ∧
      isCorrect (((collapse exPair streamZero).getD (exPair, .ok ())).1) = true :=
  collapse_collapsed_correct exPair streamZero _ (by decide) (by decide)
    (by decide) (by decide)
    (by intro i sa j sb; cases sa <;> cases sb <;> rfl) rfl

end WFC
